import Mathlib

/-!
Verification of the scikit-nano geometric generation core.

This file gives a shallow embedding, over `ℚ`, of the point/vector
primitives (`src/sknano/core/_npcoremath.py`,
`src/sknano/core/math/_point.py`) and of the SWNT structure generators
(`src/sknano/generators/_swnt_generator.py`,
`src/sknano/generators/_base.py`), and proves or refutes the spec's
claims about them.  Machine floats are modelled by exact rationals;
numpy trigonometric functions are abstract parameters where they occur.
-/

namespace SkNano

/-! ## Point construction

`Point.__new__` (identical in `src/sknano/core/_npcoremath.py` lines
34-80 and `src/sknano/core/math/_point.py` lines 34-80) dispatches on
the kind of the `p` argument.  We model the possible Python arguments:
an explicit sequence — a Python `list`, `tuple` or numpy array — whose
entries may be `None` (`Option.none`) or numeric, or any non-sequence
value (a scalar, a string, Python `None`, ...) carried abstractly by a
tag that the constructor never inspects. -/
inductive PointInput where
  | pylist (xs : List (Option ℚ))
  | pytuple (xs : List (Option ℚ))
  | pyarray (xs : List (Option ℚ))
  | nonseq (tag : String)
deriving Repr, DecidableEq

/-- Replace each missing (`None`) entry by `0.0`, keeping numeric
entries: the effect of the loop `for i, coord in enumerate(p[:]):
if coord is None: p[i] = 0.0` followed by `np.asarray(p, dtype=dtype)`
when every item assignment succeeds. -/
def fillMissing (xs : List (Option ℚ)) : List ℚ :=
  xs.map (fun c => c.getD 0)

/-- `Point.__new__(cls, p, nd, dtype, copy)`, sequence and fallback
branches (`_npcoremath.py` lines 53-68; `_point.py` lines 53-68).

For a sequence argument the constructor walks the items and assigns
`p[i] = 0.0` at each `None`.  Python lists and numpy arrays support item
assignment, so `None` entries are replaced in place and the numeric
entries survive `np.asarray`.  A `tuple` raises `TypeError` at the first
attempted item assignment — hence only when some entry is `None` — and
the `except TypeError` branch replaces the whole input by
`np.zeros(len(p))`.  A non-sequence argument takes the `else` branch:
`nd` defaults to `3` when it is `None` or not a number, and the result
is `np.zeros(nd)`.  `nd : Option ℕ` models the explicitly supplied
numeric dimensionality (`none` covering both Python `None` and a
non-numeric `nd`). -/
def Point_new (p : PointInput) (nd : Option ℕ) : List ℚ :=
  match p with
  | .pylist xs => fillMissing xs
  | .pyarray xs => fillMissing xs
  | .pytuple xs =>
      if xs.any (fun c => c.isNone) then List.replicate xs.length 0
      else fillMissing xs
  | .nonseq _ =>
      match nd with
      | none => List.replicate 3 0
      | some k => List.replicate k 0

/-- `Point.rezero_coords` (`_point.py` lines 141-153, `_npcoremath.py`
lines 134-146) and `Vector.rezero_components` (`_npcoremath.py` lines
331-343) share the same body:
`self[np.where(np.abs(self) <= epsilon)] = 0.0`. -/
def rezero (epsilon : ℚ) (xs : List ℚ) : List ℚ :=
  xs.map (fun c => if |c| ≤ epsilon then 0 else c)

/-! ## Claim theorems for the Point constructor and rezero -/

/-- C6 counterexample.  The claim states that for every explicit
sequence with missing components, the supplied numeric components are
preserved unchanged "for sequences of any kind (list, tuple, or
array)".  For the tuple `(1.0, None)` the item assignment raises
`TypeError` and the constructor falls back to `np.zeros(2)`: the
supplied component `1.0` is not preserved. -/
theorem point_new_tuple_not_preserved :
    Point_new (PointInput.pytuple [some 1, none]) none = [0, 0] ∧
    ¬ Point_new (PointInput.pytuple [some 1, none]) none = [1, 0] := by
  decide

/-- C6 (amended).  Construction from an explicit sequence with missing
components never fails and always returns a point of the sequence's
length.  For a list or array, each missing component defaults to zero
and each supplied numeric component is preserved unchanged.  For a
tuple this holds only when no component is missing; a tuple containing
a missing component is replaced wholesale by the zero point of the same
length. -/
theorem point_new_missing_components (xs : List (Option ℚ)) (nd : Option ℕ) :
    Point_new (PointInput.pylist xs) nd = xs.map (fun c => c.getD 0) ∧
    Point_new (PointInput.pyarray xs) nd = xs.map (fun c => c.getD 0) ∧
    Point_new (PointInput.pytuple xs) nd =
      (if xs.any (fun c => c.isNone) then List.replicate xs.length 0
       else xs.map (fun c => c.getD 0)) ∧
    (Point_new (PointInput.pylist xs) nd).length = xs.length ∧
    (Point_new (PointInput.pytuple xs) nd).length = xs.length := by
  refine ⟨rfl, rfl, rfl, by simp [Point_new, fillMissing], ?_⟩
  by_cases h : xs.any (fun c => c.isNone) <;>
    simp [Point_new, fillMissing, h]

/-- C7.  Constructing a `Point` from any non-sequence input without an
explicit numeric dimensionality does not raise: it returns the
zero-valued point of dimensionality 3. -/
theorem point_new_nonseq_default (tag : String) :
    Point_new (PointInput.nonseq tag) none = [0, 0, 0] ∧
    (Point_new (PointInput.nonseq tag) none).length = 3 := by
  exact ⟨rfl, rfl⟩

/-- C8.  `rezero epsilon` sets exactly those components whose absolute
value is `≤ epsilon` to zero and leaves all other components unchanged
(stated componentwise for every index), and it is idempotent. -/
theorem rezero_spec (epsilon : ℚ) (xs : List ℚ) (i : ℕ) :
    (rezero epsilon xs)[i]? =
      (xs[i]?).map (fun c => if |c| ≤ epsilon then 0 else c) ∧
    rezero epsilon (rezero epsilon xs) = rezero epsilon xs := by
  constructor
  · simp [rezero]
  · have hf : ∀ c : ℚ,
        (if |(if |c| ≤ epsilon then (0 : ℚ) else c)| ≤ epsilon then (0 : ℚ)
         else if |c| ≤ epsilon then 0 else c) =
        (if |c| ≤ epsilon then 0 else c) := by
      intro c
      by_cases h : |c| ≤ epsilon
      · simp only [h, if_pos]
        by_cases h0 : |(0 : ℚ)| ≤ epsilon <;> simp [h0]
      · simp [h]
    simp only [rezero, List.map_map]
    exact List.map_congr_left (fun c _ => hf c)

/-! ## Bound vectors

A `Vector` (`src/sknano/core/_npcoremath.py` lines 149-343) is a numpy
array of components `v` holding private references `_p` (terminal
point) and `_p0` (origin point).  We model the state of such a bound
vector by the three coordinate arrays. -/

/-- numpy elementwise subtraction (`self._p - self._p0`). -/
def listSub (a b : List ℚ) : List ℚ := List.zipWith (fun x y => x - y) a b

/-- numpy elementwise addition (`p0 + v`). -/
def listAdd (a b : List ℚ) : List ℚ := List.zipWith (fun x y => x + y) a b

/-- State of a `Vector` bound to a terminal point `_p` and origin point
`_p0`: `v` are the vector's own array components. -/
structure VecState where
  v : List ℚ
  p : List ℚ
  p0 : List ℚ
deriving Repr, DecidableEq

/-- Well-formedness: components and the two bound points share the
vector's dimensionality, as established by `Vector.__new__`. -/
def VecState.wf (s : VecState) : Prop :=
  s.p.length = s.v.length ∧ s.p0.length = s.v.length

/-- The spec invariant `v = p − p0`, componentwise. -/
def VecState.inv (s : VecState) : Prop :=
  ∀ i < s.v.length, s.v.getD i 0 = s.p.getD i 0 - s.p0.getD i 0

instance (s : VecState) : Decidable s.inv :=
  inferInstanceAs
    (Decidable (∀ i < s.v.length, s.v.getD i 0 = s.p.getD i 0 - s.p0.getD i 0))

/-- One mutation of a bound `Vector`.

* `setAlias i val` — a named-alias write `vec.x = val` / `vec.y = val` /
  `vec.z = val` (component index `i`), intercepted by
  `Vector.__setattr__` (lines 271-307);
* `setIndex i val` — a raw index write `vec[i] = val`, which goes to the
  inherited `numpy.ndarray.__setitem__` (no override exists);
* `setP q` — the property setter `vec.p = q` (lines 314-318);
* `setP0 q` — the property setter `vec.p0 = q` (lines 325-329). -/
inductive VecMut where
  | setAlias (i : ℕ) (val : ℚ)
  | setIndex (i : ℕ) (val : ℚ)
  | setP (q : List ℚ)
  | setP0 (q : List ℚ)
deriving Repr, DecidableEq

/-- Effect of one mutation on a bound vector's state.

`setAlias i val`: `Vector.__setattr__` runs `self[i] = value` and then
`self._p.<axis> = self._p0.<axis> + value` (the `Point.__setattr__` of
`_p` turns that into a component write), leaving `_p0` untouched.

`setIndex i val`: the plain `ndarray` item write updates only the
component array; neither point is touched.

`setP q`: the setter runs `self._p[:] = value` then
`self[:] = self._p - self._p0`.

`setP0 q`: the setter runs `self._p0[:] = value` then
`self[:] = self._p - self._p0`. -/
def VecState.applyMut (s : VecState) : VecMut → VecState
  | .setAlias i val =>
      { s with v := s.v.set i val, p := s.p.set i (s.p0.getD i 0 + val) }
  | .setIndex i val => { s with v := s.v.set i val }
  | .setP q => { s with p := q, v := listSub q s.p0 }
  | .setP0 q => { s with p0 := q, v := listSub s.p q }

/-- The mutations that are routed through the synchronizing code paths
(`__setattr__` alias interception and the two property setters); a raw
index write is not. -/
def VecMut.synced : VecMut → Bool
  | .setIndex _ _ => false
  | _ => true

/-- Dimension discipline of a mutation against dimensionality `n`: alias
and index writes address an existing component, and the values assigned
through the two setters have the vector's dimensionality (numpy slice
assignment would otherwise broadcast or fail). -/
def VecMut.wfFor (n : ℕ) : VecMut → Prop
  | .setAlias i _ => i < n
  | .setIndex i _ => i < n
  | .setP q => q.length = n
  | .setP0 q => q.length = n

instance (n : ℕ) (μ : VecMut) : Decidable (μ.wfFor n) :=
  match μ with
  | .setAlias i _ => inferInstanceAs (Decidable (i < n))
  | .setIndex i _ => inferInstanceAs (Decidable (i < n))
  | .setP q => inferInstanceAs (Decidable (q.length = n))
  | .setP0 q => inferInstanceAs (Decidable (q.length = n))

/-- `Vector.__new__` (lines 175-228), for non-`Vector` first arguments.
`v` models an explicit component sequence (`tuple`/`list`/`ndarray`),
`none` meaning no usable sequence was supplied.  When `v` is a
sequence, `nd` is taken from it, `p0` is built (defaulting to the
origin of that dimensionality) and the terminal point is *computed* as
`p = p0 + v` — the `p` argument is never read on this branch.  When `v`
is not a sequence, `nd` defaults to 3, both points default to the
origin, and the components are computed as `v = p - p0`. -/
def Vector_new (v : Option (List ℚ)) (nd : Option ℕ) (p : Option (List ℚ))
    (p0 : Option (List ℚ)) : VecState :=
  match v with
  | some vs =>
      let p0v := match p0 with
        | none => List.replicate vs.length 0
        | some q => q
      { v := vs, p := listAdd p0v vs, p0 := p0v }
  | none =>
      let n := match nd with | none => 3 | some k => k
      let pv := match p with | none => List.replicate n 0 | some q => q
      let p0v := match p0 with | none => List.replicate n 0 | some q => q
      { v := listSub pv p0v, p := pv, p0 := p0v }

/-- Helper: a synced, dimension-respecting mutation of a well-formed
state preserves well-formedness, the invariant `v = p − p0`, and the
dimensionality. -/
theorem applyMut_synced_preserves (s : VecState) (μ : VecMut) (hwf : s.wf)
    (hinv : s.inv) (hsync : μ.synced = true) (hdim : μ.wfFor s.v.length) :
    (s.applyMut μ).wf ∧ (s.applyMut μ).inv ∧
      (s.applyMut μ).v.length = s.v.length := by
  obtain ⟨hp, hp0⟩ := hwf
  cases μ with
  | setIndex i val => simp [VecMut.synced] at hsync
  | setAlias i val =>
      simp only [VecMut.wfFor] at hdim
      refine ⟨⟨by simp [VecState.applyMut, hp], by simp [VecState.applyMut, hp0]⟩, ?_, by simp [VecState.applyMut]⟩
      intro k hk
      simp only [VecState.applyMut, List.length_set] at hk ⊢
      simp only [List.getD_eq_getElem?_getD, List.getElem?_set]
      by_cases hik : i = k
      · subst hik
        simp [hdim, hp ▸ hdim]
      · have := hinv k hk
        simp only [List.getD_eq_getElem?_getD] at this
        simp [hik, this]
  | setP q =>
      simp only [VecMut.wfFor] at hdim
      have hlen : (listSub q s.p0).length = s.v.length := by
        simp [listSub, hdim, hp0]
      refine ⟨⟨by simp [VecState.applyMut, hdim, hlen], by simp [VecState.applyMut, hp0, hlen]⟩, ?_, by simp [VecState.applyMut, hlen]⟩
      intro k hk
      simp only [VecState.applyMut] at hk ⊢
      rw [hlen] at hk
      have hkq : k < q.length := hdim ▸ hk
      have hkp0 : k < s.p0.length := hp0 ▸ hk
      have hkz : k < (listSub q s.p0).length := hlen ▸ hk
      rw [List.getD_eq_getElem _ _ hkz, List.getD_eq_getElem _ _ hkq,
        List.getD_eq_getElem _ _ hkp0]
      simp [listSub]
  | setP0 q =>
      simp only [VecMut.wfFor] at hdim
      have hlen : (listSub s.p q).length = s.v.length := by
        simp [listSub, hdim, hp]
      refine ⟨⟨by simp [VecState.applyMut, hp, hlen], by simp [VecState.applyMut, hdim, hlen]⟩, ?_, by simp [VecState.applyMut, hlen]⟩
      intro k hk
      simp only [VecState.applyMut] at hk ⊢
      rw [hlen] at hk
      have hkq : k < q.length := hdim ▸ hk
      have hkp : k < s.p.length := hp ▸ hk
      have hkz : k < (listSub s.p q).length := hlen ▸ hk
      rw [List.getD_eq_getElem _ _ hkz, List.getD_eq_getElem _ _ hkp,
        List.getD_eq_getElem _ _ hkq]
      simp [listSub]

/-- C1 counterexample.  The claim includes "writing a vector component
by index" among the invariant-preserving mutations.  `Vector` does not
override `__setitem__`, so a raw index write `vec[0] = 5` updates only
the component array and neither bound point: starting from the
consistent bound vector `v = (1,0,0)`, `p = (1,0,0)`, `p0 = (0,0,0)`,
after `vec[0] = 5` the invariant `v = p − p0` fails. -/
theorem vector_index_write_breaks_invariant :
    (VecState.mk [1, 0, 0] [1, 0, 0] [0, 0, 0]).wf ∧
    (VecState.mk [1, 0, 0] [1, 0, 0] [0, 0, 0]).inv ∧
    ¬ ((VecState.mk [1, 0, 0] [1, 0, 0] [0, 0, 0]).applyMut
        (VecMut.setIndex 0 5)).inv := by
  refine ⟨⟨rfl, rfl⟩, ?_, ?_⟩
  · intro i hi
    have hi3 : i < 3 := hi
    interval_cases i <;> norm_num [List.getD]
  · intro h
    have h0 := h 0 (by simp [VecState.applyMut])
    norm_num [VecState.applyMut, List.getD] at h0

/-- C1 (amended).  For a well-formed bound vector satisfying
`v = p − p0`, the invariant holds after each individual mutation of any
sequence of *synchronized*, dimension-respecting mutations — writing a
component by named alias (`x`, `y`, `z`), replacing the terminal point
`p`, or replacing the origin point `p0`; an alias write updates the
corresponding component of `p` to `p0 + value` and leaves `p0` fixed,
and replacing `p` or `p0` recomputes `v = p − p0`.  (Raw index writes
are excluded: they bypass the synchronization, see the
counterexample.) -/
theorem vector_synced_mutations_preserve_invariant (s : VecState)
    (ms : List VecMut) (hwf : s.wf) (hinv : s.inv)
    (hms : ∀ μ ∈ ms, μ.synced = true ∧ μ.wfFor s.v.length) :
    (ms.foldl VecState.applyMut s).inv ∧
    (∀ i val, (s.applyMut (VecMut.setAlias i val)).p0 = s.p0) ∧
    (∀ i val, i < s.v.length →
      (s.applyMut (VecMut.setAlias i val)).p.getD i 0 = s.p0.getD i 0 + val) := by
  refine ⟨?_, fun i val => rfl, ?_⟩
  · induction ms generalizing s with
    | nil => exact hinv
    | cons μ rest ih =>
        obtain ⟨hsync, hdim⟩ := hms μ (List.mem_cons_self μ rest)
        obtain ⟨hwf1, hinv1, hlen1⟩ :=
          applyMut_synced_preserves s μ hwf hinv hsync hdim
        exact ih (s.applyMut μ) hwf1 hinv1
          (fun ν hν => by
            obtain ⟨h1, h2⟩ := hms ν (List.mem_cons_of_mem μ hν)
            exact ⟨h1, hlen1 ▸ h2⟩)
  · intro i val hi
    have hip : i < s.p.length := hwf.1 ▸ hi
    simp [VecState.applyMut, List.getD_eq_getElem?_getD, List.getElem?_set, hip]

/-- C1 witness: a concrete run.  Start from the consistent bound vector
`v = (1,2,3)`, `p = (1,2,3)`, `p0 = (0,0,0)` and apply an alias write,
an origin replacement and a terminal replacement; the final state still
satisfies `v = p − p0`. -/
theorem vector_synced_mutations_preserve_invariant_witness :
    (([VecMut.setAlias 0 5, VecMut.setP0 [1, 1, 1],
       VecMut.setP [4, 4, 4]].foldl VecState.applyMut
        (VecState.mk [1, 2, 3] [1, 2, 3] [0, 0, 0])).inv) :=
  (vector_synced_mutations_preserve_invariant
    (VecState.mk [1, 2, 3] [1, 2, 3] [0, 0, 0])
    [VecMut.setAlias 0 5, VecMut.setP0 [1, 1, 1], VecMut.setP [4, 4, 4]]
    ⟨rfl, rfl⟩
    (by intro i hi
        have hi3 : i < 3 := hi
        interval_cases i <;> norm_num [List.getD])
    (by decide)).1

/-- C9.  When `Vector.__new__` receives an explicit component sequence
`v`, any explicitly supplied terminal-point argument `p` is ignored: the
construction is identical to the one with `p` omitted, and the bound
terminal point is computed as `p0 + v` (with `p0` defaulting to the
origin of `v`'s dimensionality when not given). -/
theorem vector_new_ignores_terminal_arg (vs : List ℚ) (nd : Option ℕ)
    (ps : Option (List ℚ)) (p0 : Option (List ℚ)) :
    Vector_new (some vs) nd ps p0 = Vector_new (some vs) nd none p0 ∧
    (Vector_new (some vs) nd ps p0).p =
      listAdd ((Vector_new (some vs) nd ps p0).p0) vs ∧
    (Vector_new (some vs) nd ps p0).p0 =
      (p0.getD (List.replicate vs.length 0)) ∧
    (Vector_new (some vs) nd ps p0).v = vs := by
  cases p0 <;> exact ⟨rfl, rfl, rfl, rfl⟩

/-- C10.  Assigning a new value to `p0` recomputes the components as
`p − p0` while leaving every component of the terminal point `p`
unchanged, and the resulting state satisfies `v = p − p0`;
symmetrically, assigning a new value to `p` leaves every component of
`p0` unchanged, recomputes `v = p − p0`, and the resulting state
satisfies the invariant. -/
theorem vector_point_setters_frame (s : VecState) (q : List ℚ) :
    (s.applyMut (VecMut.setP0 q)).p = s.p ∧
    (s.applyMut (VecMut.setP0 q)).p0 = q ∧
    (s.applyMut (VecMut.setP0 q)).v = listSub s.p q ∧
    (s.applyMut (VecMut.setP0 q)).inv ∧
    (s.applyMut (VecMut.setP q)).p0 = s.p0 ∧
    (s.applyMut (VecMut.setP q)).p = q ∧
    (s.applyMut (VecMut.setP q)).v = listSub q s.p0 ∧
    (s.applyMut (VecMut.setP q)).inv := by
  refine ⟨rfl, rfl, rfl, ?_, rfl, rfl, rfl, ?_⟩
  · intro k hk
    simp only [VecState.applyMut, listSub, List.length_zipWith] at hk ⊢
    have hkp : k < s.p.length := lt_of_lt_of_le hk (min_le_left _ _)
    have hkq : k < q.length := lt_of_lt_of_le hk (min_le_right _ _)
    have hkz : k < (List.zipWith (fun x y => x - y) s.p q).length := by
      simp [List.length_zipWith]; omega
    rw [List.getD_eq_getElem _ _ hkz, List.getD_eq_getElem _ _ hkp,
      List.getD_eq_getElem _ _ hkq]
    simp
  · intro k hk
    simp only [VecState.applyMut, listSub, List.length_zipWith] at hk ⊢
    have hkq : k < q.length := lt_of_lt_of_le hk (min_le_left _ _)
    have hkp0 : k < s.p0.length := lt_of_lt_of_le hk (min_le_right _ _)
    have hkz : k < (List.zipWith (fun x y => x - y) q s.p0).length := by
      simp [List.length_zipWith]; omega
    rw [List.getD_eq_getElem _ _ hkz, List.getD_eq_getElem _ _ hkq,
      List.getD_eq_getElem _ _ hkp0]
    simp

/-! ## SWNT structure generation

`SWNTGenerator` (`src/sknano/generators/_swnt_generator.py`).  The
`GeneratorAtom`/`GeneratorAtoms` classes it builds its output from are
imported from modules that are not part of the sources; they are
modelled from the spec below. -/

/-- Modelled from the spec: a generator atom (class `GeneratorAtom`,
imported by `_swnt_generator.py` but not under `src/`): "an
identity-bearing particle with an element label and a `Point` position"
(spec §3), the position held as `x`, `y`, `z` coordinates. -/
structure GAtom where
  element : String
  x : ℚ
  y : ℚ
  z : ℚ
deriving Repr, DecidableEq, Inhabited

/-- Modelled from the spec: `Atom.rezero()` (not under `src/`) — "Each
atom's coordinates are rezeroed (component values below the
point-tolerance snapped to zero) immediately after construction" (spec
§4.3), with the point tolerance ≈ `1e-10` (spec §4.1), componentwise as
in `rezero`. -/
def GAtom.rezeroed (a : GAtom) : GAtom :=
  { a with
    x := if |a.x| ≤ 1 / 10 ^ 10 then 0 else a.x,
    y := if |a.y| ≤ 1 / 10 ^ 10 then 0 else a.y,
    z := if |a.z| ≤ 1 / 10 ^ 10 then 0 else a.z }

/-- The periodic wraparound loop of `SWNTGenerator.generate_unit_cell`
(`_swnt_generator.py` lines 140-141 and 154-155):
`while z > T - eps: z -= T`.  Each iteration decreases `z` by `T`, so
the Python loop terminates exactly when `0 < T`; the model exits
immediately when `T ≤ 0`, where the Python loop would not terminate. -/
def wrapZ (T eps z : ℚ) : ℚ :=
  if h : 0 < T ∧ T - eps < z then wrapZ T eps (z - T) else z
termination_by (⌈(z - (T - eps)) / T⌉).toNat
decreasing_by
  obtain ⟨hT, hz⟩ := h
  have hT0 : T ≠ 0 := ne_of_gt hT
  have hx : (0 : ℚ) < (z - (T - eps)) / T := div_pos (by linarith) hT
  have hc : 1 ≤ ⌈(z - (T - eps)) / T⌉ := Int.ceil_pos.mpr hx
  have he : (z - T - (T - eps)) / T = (z - (T - eps)) / T - 1 := by
    rw [show z - T - (T - eps) = (z - (T - eps)) - T by ring, sub_div,
      div_self hT0]
  rw [he, Int.ceil_sub_one]
  omega

/-- After the wraparound loop the axial coordinate is at most
`T - eps`. -/
theorem wrapZ_le (T eps : ℚ) (hT : 0 < T) (z : ℚ) : wrapZ T eps z ≤ T - eps := by
  induction z using wrapZ.induct T eps with
  | case1 z hcond ih => rw [wrapZ, dif_pos hcond]; exact ih
  | case2 z hcond =>
      rw [wrapZ, dif_neg hcond]
      push_neg at hcond
      linarith [hcond hT]

/-- The wraparound loop never takes a value above `-eps` below
`-eps`. -/
theorem wrapZ_lower (T eps z : ℚ) (hz : -eps < z) : -eps < wrapZ T eps z := by
  induction z using wrapZ.induct T eps with
  | case1 z hcond ih =>
      rw [wrapZ, dif_pos hcond]
      exact ih (by linarith [hcond.2])
  | case2 z hcond => rw [wrapZ, dif_neg hcond]; exact hz

/-- `SWNTGenerator.generate_unit_cell` (`_swnt_generator.py` lines
107-163).  The scalars `T` (axial period), `rt` (tube radius),
`tau = M*T/N`, `dtau = bond*sin(pi/6 - aCh)`, `psi = 2*pi/N` and
`dpsi = bond*cos(pi/6 - aCh)/rt` are pure functions of the chirality and
bond length supplied by the `SWNT` structure class and
`compute_chiral_angle` (not under `src/`); they, and numpy's `cos` and
`sin`, are abstract parameters here.  For each `i` in `1..N` the loop
builds basis atom 1 of element `e1` at
`(rt*cos(i*psi), rt*sin(i*psi), i*tau)` and basis atom 2 of element `e2`
at `(rt*cos(i*psi + dpsi), rt*sin(i*psi + dpsi), i*tau - dtau)`, wraps
each `z` with `while z > T - eps: z -= T` (`eps = 0.01`), rezeroes the
atom and appends it to the unit cell. -/
def generate_unit_cell (cosQ sinQ : ℚ → ℚ) (N : ℕ)
    (T rt tau dtau psi dpsi : ℚ) (e1 e2 : String) : List GAtom :=
  (List.range N).flatMap (fun j =>
    [GAtom.rezeroed
       ⟨e1, rt * cosQ (((j : ℚ) + 1) * psi), rt * sinQ (((j : ℚ) + 1) * psi),
        wrapZ T (1 / 100) (((j : ℚ) + 1) * tau)⟩,
     GAtom.rezeroed
       ⟨e2, rt * cosQ (((j : ℚ) + 1) * psi + dpsi),
        rt * sinQ (((j : ℚ) + 1) * psi + dpsi),
        wrapZ T (1 / 100) (((j : ℚ) + 1) * tau - dtau)⟩])

/-- `SWNTGenerator.generate_structure_data` (`_swnt_generator.py` lines
165-173).  For each replica index `k` in `xrange(int(ceil(nz)))` (empty
when `ceil(nz) ≤ 0`), every unit-cell atom is copied with its element
symbol and its position translated by the vector `(0, 0, k*T)`
(`nt_atom.r = uc_atom.r + dr` with `dr = Vector([0.0, 0.0, nz*T])`). -/
def generate_structure_data (T nz : ℚ) (unitCell : List GAtom) : List GAtom :=
  (List.range (⌈nz⌉.toNat)).flatMap (fun k =>
    unitCell.map (fun a =>
      { element := a.element, x := a.x + 0, y := a.y + 0,
        z := a.z + (k : ℚ) * T }))

/-- Helper: the length of a `flatMap` over `List.range` with blocks of
constant length. -/
theorem range_flatMap_length {α : Type} (g : ℕ → List α) (L : ℕ)
    (hg : ∀ k, (g k).length = L) (c : ℕ) :
    ((List.range c).flatMap g).length = c * L := by
  induction c with
  | zero => simp
  | succ c ih =>
      rw [List.range_succ, List.flatMap_append]
      simp only [List.length_append, ih, List.flatMap_cons, List.flatMap_nil,
        List.append_nil, hg]
      ring

/-- Helper: indexing a `flatMap` over `List.range` with blocks of
constant length: position `r * L + j` falls in block `r` at offset
`j`. -/
theorem range_flatMap_getElem {α : Type} (g : ℕ → List α) (L : ℕ)
    (hg : ∀ k, (g k).length = L) (c r j : ℕ) (hr : r < c) (hj : j < L) :
    ((List.range c).flatMap g)[r * L + j]? = (g r)[j]? := by
  induction c with
  | zero => omega
  | succ c ih =>
      rw [List.range_succ, List.flatMap_append]
      by_cases hrc : r < c
      · rw [List.getElem?_append_left, ih hrc]
        rw [range_flatMap_length g L hg c]
        calc r * L + j < r * L + L := by omega
          _ = (r + 1) * L := by ring
          _ ≤ c * L := Nat.mul_le_mul_right L hrc
      · have hreq : r = c := by omega
        subst hreq
        rw [List.getElem?_append_right (by rw [range_flatMap_length g L hg r]; omega)]
        rw [range_flatMap_length g L hg r]
        simp [Nat.add_sub_cancel_left]

/-- C4.  For every value of the chirality-derived scalars (and so for
all valid chiral indices and positive bond lengths), unit-cell
generation appends exactly `2N` atoms to the unit-cell collection: two
basis atoms per loop index `i = 1..N`, with elements `e1` (`element1`)
and `e2` (`element2`) respectively. -/
theorem generate_unit_cell_count (cosQ sinQ : ℚ → ℚ) (N : ℕ)
    (T rt tau dtau psi dpsi : ℚ) (e1 e2 : String) :
    (generate_unit_cell cosQ sinQ N T rt tau dtau psi dpsi e1 e2).length
      = 2 * N ∧
    (generate_unit_cell cosQ sinQ N T rt tau dtau psi dpsi e1 e2).map
        GAtom.element = (List.replicate N [e1, e2]).flatten := by
  constructor
  · rw [generate_unit_cell, range_flatMap_length _ 2 (fun k => by simp) N]
    ring
  · rw [generate_unit_cell]
    induction N with
    | zero => rfl
    | succ n ih =>
        rw [List.range_succ, List.flatMap_append, List.map_append, ih,
          List.replicate_succ', List.flatten_append]
        simp [GAtom.rezeroed]

/-- C2 counterexample.  The claim asserts that all basis-atom axial
coordinates lie in `[0, T)`.  The wraparound loop `while z > T - eps:
z -= T` can leave a coordinate in `(-ε, 0)`: with `N = 2`, `T = 4`,
`tau = 2` (`= M·T/N` for `M = 1`) and `dtau = 1/200`, basis atom 2 of
loop index `i = 2` starts at `z = 2·2 − 1/200 = 3.995 > T − ε = 3.99`,
so the loop fires once and leaves `z = −1/200 < 0` (too large in
magnitude for the `1e-10` rezero to snap it to zero). -/
theorem generate_unit_cell_negative_z :
    ∃ a ∈ generate_unit_cell (fun _ => 0) (fun _ => 0) 2 4 1 2 (1 / 200) 0 0
        "C" "C", a.z < 0 := by
  have hwz : wrapZ 4 (1 / 100) ((((1 : ℕ) : ℚ) + 1) * 2 - 1 / 200)
      = -(1 / 200) := by
    rw [wrapZ]
    norm_num
    rw [wrapZ]
    norm_num
  refine ⟨GAtom.rezeroed ⟨"C", 1 * 0, 1 * 0,
      wrapZ 4 (1 / 100) ((((1 : ℕ) : ℚ) + 1) * 2 - 1 / 200)⟩, ?_, ?_⟩
  · rw [generate_unit_cell]
    refine List.mem_flatMap.mpr ⟨1, by simp, ?_⟩
    exact List.mem_cons_of_mem _ (List.mem_cons_self _ _)
  · simp only [GAtom.rezeroed, hwz, abs_neg]
    rw [abs_of_pos (by norm_num : (0 : ℚ) < 1 / 200)]
    norm_num

/-- C2 (amended).  After the wraparound loop (and the subsequent
rezeroing) every basis atom's axial coordinate satisfies `z ≤ T − ε`
(`ε = 0.01`), provided `0 < T` (which makes the loop terminate) and
`ε ≤ T`.  The claimed lower bound `0 ≤ z` of the interval `[0, T)` does
not hold: the loop can leave coordinates in `(−ε, 0)`, see the
counterexample. -/
theorem generate_unit_cell_z_le (cosQ sinQ : ℚ → ℚ) (N : ℕ)
    (T rt tau dtau psi dpsi : ℚ) (e1 e2 : String) (hT : 0 < T)
    (hTe : 1 / 100 ≤ T) :
    ∀ a ∈ generate_unit_cell cosQ sinQ N T rt tau dtau psi dpsi e1 e2,
      a.z ≤ T - 1 / 100 := by
  have key : ∀ w : ℚ,
      (if |wrapZ T (1 / 100) w| ≤ 1 / 10 ^ 10 then (0 : ℚ)
       else wrapZ T (1 / 100) w) ≤ T - 1 / 100 := by
    intro w
    have hub := wrapZ_le T (1 / 100) hT w
    split
    · linarith
    · exact hub
  intro a ha
  rw [generate_unit_cell] at ha
  obtain ⟨j, hj, hmem⟩ := List.mem_flatMap.mp ha
  rcases List.mem_cons.mp hmem with hv | hmem2
  · subst hv
    exact key _
  · rcases List.mem_cons.mp hmem2 with hv | hfalse
    · subst hv
      exact key _
    · exact absurd hfalse (List.not_mem_nil _)

/-- C2 witness: with all scalar parameters instantiated at `N = 1`,
`T = 4`, `tau = 2`, `dtau = 1/200`, the first generated basis atom's
axial coordinate is at most `T − ε`. -/
theorem generate_unit_cell_z_le_witness :
    ((generate_unit_cell (fun _ => 0) (fun _ => 0) 1 4 1 2 (1 / 200) 0 0
        "C" "C").head!).z ≤ 4 - 1 / 100 := by
  have hne : generate_unit_cell (fun _ => 0) (fun _ => 0) 1 4 1 2 (1 / 200) 0 0
      "C" "C" ≠ [] := by
    rw [generate_unit_cell]
    simp
  exact generate_unit_cell_z_le (fun _ => 0) (fun _ => 0) 1 4 1 2 (1 / 200) 0 0
    "C" "C" (by norm_num) (by norm_num) _ (List.head!_mem_self hne)

/-- C3.  For a unit cell of `2N` atoms and replica parameter `nz ≥ 0`,
replication produces exactly `2N · ⌈nz⌉` atoms; the atom at position
`r · 2N + j` of the output (replica `r`, unit-cell slot `j`) is
unit-cell atom `j` translated by exactly `(0, 0, r·T)` with its element
identity preserved — i.e. insertion order is unit-cell order repeated
per replica with ascending replica index. -/
theorem generate_structure_data_spec (T nz : ℚ) (uc : List GAtom) (n : ℕ)
    (huc : uc.length = 2 * n) (hnz : 0 ≤ nz) :
    (((generate_structure_data T nz uc).length : ℤ) = 2 * n * ⌈nz⌉) ∧
    ∀ r j, r < ⌈nz⌉.toNat → j < uc.length →
      (generate_structure_data T nz uc)[r * uc.length + j]? =
        (uc[j]?).map (fun a =>
          { element := a.element, x := a.x + 0, y := a.y + 0,
            z := a.z + (r : ℚ) * T }) := by
  constructor
  · rw [generate_structure_data,
      range_flatMap_length _ uc.length (fun k => by simp) _, huc]
    push_cast
    rw [Int.toNat_of_nonneg (Int.ceil_nonneg hnz)]
    ring
  · intro r j hr hj
    rw [generate_structure_data,
      range_flatMap_getElem _ uc.length (fun k => by simp) _ r j hr hj]
    simp

/-- C3 witness: replicating the two-atom unit cell
`[C@(0,0,0), H@(1,2,3)]` with `nz = 2`, `T = 5` gives `2·1·2 = 4`
atoms, and the atom at position `1·2 + 1` (replica 1, slot 1) is the
`H` atom translated by `(0, 0, 1·5)`. -/
theorem generate_structure_data_spec_witness :
    (((generate_structure_data 5 2
        [⟨"C", 0, 0, 0⟩, ⟨"H", 1, 2, 3⟩]).length : ℤ) = 2 * 1 * ⌈(2 : ℚ)⌉) ∧
    (generate_structure_data 5 2
        [⟨"C", 0, 0, 0⟩, ⟨"H", 1, 2, 3⟩])[1 * 2 + 1]? =
      (([⟨"C", 0, 0, 0⟩, ⟨"H", 1, 2, 3⟩] : List GAtom)[1]?).map (fun a =>
        { element := a.element, x := a.x + 0, y := a.y + 0,
          z := a.z + ((1 : ℕ) : ℚ) * 5 }) := by
  have h := generate_structure_data_spec 5 2 [⟨"C", 0, 0, 0⟩, ⟨"H", 1, 2, 3⟩] 1
    rfl (by norm_num)
  exact ⟨h.1, h.2 1 1 (by norm_num) (by norm_num)⟩

/-! ## Save/export pipeline order -/

/-- The externally observable structure-transforming operations of the
save/export pipeline.  `clip_bounds`, `center_CM`, `rotate` and
`StructureIO.write` act on the atoms collection / the output file and
live outside `src/`; the model records which of them the `save_data`
control flow (which is under `src/`) invokes, and in what order.
`clip` records the `center_before_clipping` flag it is invoked with. -/
inductive PipelineStep where
  | clip (center_before : Bool)
  | center
  | rotate
  | write
deriving Repr, DecidableEq

/-- Rank of a pipeline step in the contractual order: clipping, then
centering, then rotation, then the write call. -/
def PipelineStep.rank : PipelineStep → ℕ
  | .clip _ => 0
  | .center => 1
  | .rotate => 2
  | .write => 3

/-- `GeneratorMixin.save_data` (`src/sknano/generators/_base.py` lines
50-111), as the sequence of pipeline operations it performs: after the
file-name/format resolution (which touches no structure data), it
centers the structure on its center of mass when `center_CM` is true,
applies the rotation matrix when `rotation_angle` is not `None`, and
always ends with the `StructureIO.write` call. -/
def GeneratorMixin_save_data (center_CM : Bool) (rotation_angle : Option ℚ) :
    List PipelineStep :=
  (if center_CM then [PipelineStep.center] else []) ++
  (match rotation_angle with
   | some _ => [PipelineStep.rotate]
   | none => []) ++
  [PipelineStep.write]

/-- `SWNTGenerator.save_data` (`_swnt_generator.py` lines 175-212), as
the sequence of pipeline operations: when a fixed target length was
requested (`self._L0 is not None and self._fix_Lz`) it clips the
structure to the cuboid region with `center_before_clipping=True`; then
it centers on the center of mass unless the caller disabled
`center_CM`; finally it delegates to `GeneratorMixin.save_data` passing
`center_CM=False` (so centering is never repeated), which rotates when
an angle was given and then writes. -/
def SWNTGenerator_save_data (L0 : Option ℚ) (fix_Lz center_CM : Bool)
    (rotation_angle : Option ℚ) : List PipelineStep :=
  (if L0.isSome && fix_Lz then [PipelineStep.clip true] else []) ++
  (if center_CM then [PipelineStep.center] else []) ++
  GeneratorMixin_save_data false rotation_angle

/-- C5.  For every combination of caller flags, the save pipeline is
exactly: clip-to-length (only when a fixed target length was requested,
with centering-before-clip enabled), then center-of-mass centering
(unless the caller disables it), then rotation (only when a rotation
angle is given), then the write call; and the emitted steps are
strictly ordered by pipeline rank, so rotation is never applied before
clipping or centering. -/
theorem save_data_pipeline_order (L0 : Option ℚ) (fix_Lz center_CM : Bool)
    (rotation_angle : Option ℚ) :
    SWNTGenerator_save_data L0 fix_Lz center_CM rotation_angle =
      (if L0.isSome && fix_Lz then [PipelineStep.clip true] else []) ++
      (if center_CM then [PipelineStep.center] else []) ++
      (if rotation_angle.isSome then [PipelineStep.rotate] else []) ++
      [PipelineStep.write] ∧
    List.Pairwise (fun a b => a.rank < b.rank)
      (SWNTGenerator_save_data L0 fix_Lz center_CM rotation_angle) := by
  cases L0 <;> cases rotation_angle <;> cases fix_Lz <;> cases center_CM <;>
    exact ⟨rfl, by
      simp only [SWNTGenerator_save_data, GeneratorMixin_save_data,
        Option.isSome_some, Option.isSome_none, Bool.true_and, Bool.false_and,
        Bool.and_true, Bool.and_false]
      decide⟩

end SkNano
